import Mathlib

/-!
# Verification of the `complex-vis` CPU rasterizer (`src/canvas.rs`)

Shallow embedding of the color/compositing model, the pixel buffer
(`Canvas`), and the line / circle / polygon rasterizers, together with
theorems settling the specification claims.

Modelling conventions:
* `u8` channels are `Nat` (the code never wraps: blending results stay in
  `[0, 255]` when inputs do, and no theorem needs a modular bound);
* `usize` is `Nat`, `isize` is `Int` (no arithmetic in the source comes
  near `2^64`, so overflow wrapping is never exercised);
* fallible operations (`Vec::get`, `Vec::get_mut`, indexing that can
  panic) return `Option`; a panicking execution is `none`;
* the floating-point blend factor and the `f32` slope test are modelled
  exactly where they are exact (see `RGB.lerp255` and `r32`).
-/

namespace CanvasRs

set_option autoImplicit false

/-! ## The embedded program: colors, canvas, and the rasterizers -/

/-- Translucent color: four 8-bit channels (`canvas.rs`, `struct RGBA`). -/
structure RGBA where
  r : Nat
  g : Nat
  b : Nat
  a : Nat
deriving DecidableEq, Repr

/-- Opaque color: three 8-bit channels (`canvas.rs`, `struct RGB`). -/
structure RGB where
  r : Nat
  g : Nat
  b : Nat
deriving DecidableEq, Repr

/-- Models `RGBA::to_rgb`: split a translucent color into its RGB part and alpha byte. -/
def RGBA.to_rgb (self : RGBA) : RGB × Nat :=
  (⟨self.r, self.g, self.b⟩, self.a)

/-- Models `RGB::lerp` with interpolation factor `a = alpha/255`.

The source computes per channel `((1.0 - a) * self as f64 + a * other as f64) as u8`
with `a = alpha as f64 / 255.0`.  For channel values `≤ 255` and
`alpha ∈ {0, 255}` (the only alphas any claim exercises) the `f64`
computation is exact, and the `as u8` cast truncates toward zero; we model
the expression exactly over the rationals:
`((255 - alpha) * self + alpha * other) / 255` with truncating division. -/
def RGB.lerp255 (self other : RGB) (alpha : Nat) : RGB :=
  { r := ((255 - alpha) * self.r + alpha * other.r) / 255
    g := ((255 - alpha) * self.g + alpha * other.g) / 255
    b := ((255 - alpha) * self.b + alpha * other.b) / 255 }

/-- Models `RGB::add_rgba`: composite a translucent color over an opaque base. -/
def RGB.add_rgba (self : RGB) (other : RGBA) : RGB :=
  let p := other.to_rgb
  self.lerp255 p.1 p.2

/-- Models `struct Canvas`: a width, a height and a flat row-major pixel buffer. -/
structure Canvas where
  width : Nat
  height : Nat
  buffer : List RGB
deriving DecidableEq, Repr

/-- Models `Canvas::new`: `width*height` cells, all black. -/
def Canvas.new (width height : Nat) : Canvas :=
  { width := width, height := height
    buffer := List.replicate (width * height) ⟨0, 0, 0⟩ }

/-- Models `Canvas::pixel_inside`: signed bounds check. -/
def Canvas.pixel_inside (self : Canvas) (x y : Int) : Bool :=
  decide (0 ≤ x) && decide (x < (self.width : Int)) &&
    decide (0 ≤ y) && decide (y < (self.height : Int))

/-- Models `Canvas::get`: `self.buffer.get(y * self.width + x)`.
Note the source checks only the flat index against the buffer length,
not `x` against `width`. -/
def Canvas.get (self : Canvas) (x y : Nat) : Option RGB :=
  self.buffer.get? (y * self.width + x)

/-- Models `Canvas::set`: `*self.buffer.get_mut(y * self.width + x)? = color`.
`none` when the flat index is out of range (in which case the Rust code
leaves the buffer untouched). -/
def Canvas.set (self : Canvas) (x y : Nat) (color : RGB) : Option Canvas :=
  if y * self.width + x < self.buffer.length then
    some { self with buffer := self.buffer.set (y * self.width + x) color }
  else
    none

/-- Models `Canvas::fill`: `self.buffer = vec![color; self.width * self.height]`
(the buffer is recreated at full size, not mutated in place). -/
def Canvas.fill (self : Canvas) (color : RGB) : Canvas :=
  { self with buffer := List.replicate (self.width * self.height) color }

/-- Models `Canvas::draw_pixel`: clip against the bounds, read the old color,
blend, write back.  The Rust function returns `Option<()>`; every caller
in the file ignores it, so we return the (possibly unchanged) canvas. -/
def Canvas.draw_pixel (self : Canvas) (x y : Int) (color : RGBA) : Canvas :=
  if self.pixel_inside x y then
    match self.get x.toNat y.toNat with
    | none => self
    | some old_color => (self.set x.toNat y.toNat (old_color.add_rgba color)).getD self
  else
    self

/-- The eight `draw_pixel` positions of one `Canvas::draw_circle` loop pass
followed by the decision-variable update, in source order.  Note the second
group of four calls in the source is
`self.draw_pixel(y ± y_offset, x ± x_offset, color)` — the first argument
(the x position) is built from `y`, the second from `x`. -/
def circleLoop (x y : Int) : Nat → Int → Int → Int → List (Int × Int)
  | 0, _, _, _ => []
  | fuel + 1, e, x_offset, y_offset =>
    if y_offset ≤ x_offset then
      [(x + x_offset, y + y_offset), (x + x_offset, y - y_offset),
       (x - x_offset, y + y_offset), (x - x_offset, y - y_offset),
       (y + y_offset, x + x_offset), (y + y_offset, x - x_offset),
       (y - y_offset, x - x_offset), (y - y_offset, x + x_offset)] ++
      (let e2 := e + 2 * y_offset + 1
       if 0 ≤ e2 then
         circleLoop x y fuel (e2 - (2 * x_offset - 1)) (x_offset - 1) (y_offset + 1)
       else
         circleLoop x y fuel e2 x_offset (y_offset + 1))
    else []

/-- All `draw_pixel` positions of `Canvas::draw_circle(x, y, r, _)`. -/
def drawCirclePoints (x y : Int) (r : Nat) : List (Int × Int) :=
  circleLoop x y (r + 2) (-(r : Int)) (r : Int) 0

/-- Models `Canvas::draw_circle`. -/
def Canvas.draw_circle (self : Canvas) (x y : Int) (r : Nat) (color : RGBA) : Canvas :=
  (drawCirclePoints x y r).foldl (fun cv p => cv.draw_pixel p.1 p.2 color) self

/-- A `buff[idx as usize] = v` write on a `Vec<isize>` where `idx : isize`.
A negative index wraps under `as usize` to at least `2^63`, far beyond any
buffer length arising here, so it panics exactly like an index past the
end; both outcomes are `none`. -/
def wr (buff : List Int) (idx v : Int) : Option (List Int) :=
  if 0 ≤ idx ∧ idx.toNat < buff.length then some (buff.set idx.toNat v) else none

/-- The recording loop of `Canvas::draw_circle_solid`: the same midpoint
stepping, performing the eight buffer writes of the source in order
(`none` = a write panicked). -/
def circleSolidLoop (x y : Int) (r : Nat) :
    Nat → Int → Int → Int → List Int → List Int → Option (List Int × List Int)
  | 0, _, _, _, _, _ => none
  | fuel + 1, e, x_offset, y_offset, left_buff, right_buff =>
    if y_offset ≤ x_offset then do
      let right_buff ← wr right_buff (y + y_offset - (y - (r : Int))) (x + x_offset)
      let right_buff ← wr right_buff (y - y_offset - (y - (r : Int))) (x + x_offset)
      let left_buff ← wr left_buff (y + y_offset - (y - (r : Int))) (x - x_offset)
      let left_buff ← wr left_buff (y - y_offset - (y - (r : Int))) (x - x_offset)
      let right_buff ← wr right_buff (x + x_offset - (y - (r : Int))) (y + y_offset)
      let right_buff ← wr right_buff (x - x_offset - (y - (r : Int))) (y + y_offset)
      let left_buff ← wr left_buff (x + x_offset - (y - (r : Int))) (y - y_offset)
      let left_buff ← wr left_buff (x - x_offset - (y - (r : Int))) (y - y_offset)
      let e2 := e + 2 * y_offset + 1
      if 0 ≤ e2 then
        circleSolidLoop x y r fuel (e2 - (2 * x_offset - 1)) (x_offset - 1) (y_offset + 1)
          left_buff right_buff
      else
        circleSolidLoop x y r fuel e2 x_offset (y_offset + 1) left_buff right_buff
    else some (left_buff, right_buff)

/-- The fill phase of `Canvas::draw_circle_solid`: for `i in 0..dy`
(`dy = 2*r`), row `i + (y - r)` gets every x in `left_buff[i]..right_buff[i]`
(right-exclusive).  `i < 2*r < buffer length`, so the `getD` defaults are
never used. -/
def circleSolidFillPoints (y : Int) (r : Nat) (left_buff right_buff : List Int) :
    List (Int × Int) :=
  (List.range (2 * r)).flatMap fun i =>
    let yrow := (i : Int) + (y - (r : Int))
    let x1 := left_buff.getD i 0
    let x2 := right_buff.getD i 0
    (List.range (x2 - x1).toNat).map fun j : Nat => (x1 + (j : Int), yrow)

/-- All `draw_pixel` positions of `Canvas::draw_circle_solid(x, y, r, _)`,
or `none` if the recording phase panics.  Both scanline buffers are
`vec![0isize; 2*r + 1]`. -/
def circleSolidPoints (x y : Int) (r : Nat) : Option (List (Int × Int)) :=
  (circleSolidLoop x y r (r + 2) (-(r : Int)) (r : Int) 0
      (List.replicate (2 * r + 1) 0) (List.replicate (2 * r + 1) 0)).map
    fun bufs => circleSolidFillPoints y r bufs.1 bufs.2

/-- Models `Canvas::draw_circle_solid`; `none` = the call panics. -/
def Canvas.draw_circle_solid (self : Canvas) (x y : Int) (r : Nat) (color : RGBA) :
    Option Canvas :=
  (circleSolidPoints x y r).map fun pts =>
    pts.foldl (fun cv p => cv.draw_pixel p.1 p.2 color) self

/-- Structurally fuelled floor-log2 (`Nat.log2` is well-founded-recursive
and so not kernel-reducible); 64 halvings cover every `u64`-sized input. -/
def log2fuel : Nat → Nat → Nat
  | 0, _ => 0
  | fuel + 1, n => if n ≤ 1 then 0 else log2fuel fuel (n / 2) + 1

/-- Round a natural number to the nearest `f32` value (24-bit mantissa,
round-to-nearest, ties-to-even); exact at or below `2^24`, and no input
here comes near `f32` overflow.  Models Rust's `n as f32` for the
nonnegative `|dx|`, `|dy|` operands of the slope test. -/
def r32 (n : Nat) : Nat :=
  if n ≤ 2 ^ 24 then n
  else
    let e := log2fuel 64 n
    let s := 2 ^ (e - 23)
    let q := n / s
    let rem := n % s
    if 2 * rem < s then q * s
    else if s < 2 * rem then (q + 1) * s
    else if q % 2 = 0 then q * s else (q + 1) * s

/-- The branch test `abs_m <= 1.0` where
`abs_m = dy as f32 / dx as f32` (used by `draw_line` and
`polygon_buffer_line`).  For nonnegative integer operands the correctly
rounded `f32` quotient is `≤ 1.0` iff `dx ≠ 0 ∧ r32 dy ≤ r32 dx`:
if `r32 dy ≤ r32 dx` the true quotient is `≤ 1` and rounding is monotone
with `1.0` representable; if `r32 dy > r32 dx` the quotient exceeds `1`
by more than half an ulp of `1.0` (two distinct `f32` values have relative
gap above `2^-24`), so it rounds above `1.0`; and `dx = 0` yields `inf`
(or `NaN` when also `dy = 0`), for which the comparison is false. -/
def slopeLE1 (dy dx : Nat) : Bool :=
  decide (dx ≠ 0) && decide (r32 dy ≤ r32 dx)

/-- Build the emitted pixel: in the shallow branch (`horiz = true`) the
major coordinate `t` is x and the minor `u` is y; in the steep branch the
roles are swapped. -/
def mkPt (horiz : Bool) (t u : Int) : Int × Int :=
  if horiz then (t, u) else (u, t)

/-- The Bresenham stepping loop shared by both branches of `draw_line`
(`for i in 1..=(end - start)` over the major axis): each iteration either
keeps the decision variable negative (`p += a`, offset unchanged) or
crosses (`p += b`, `offset += step`), then draws at major coordinate
`t + 1`, minor coordinate `c0 + offset`. -/
def bresPts (a b step : Int) (horiz : Bool) (c0 : Int) :
    Int → Int → Int → Nat → List (Int × Int)
  | _, _, _, 0 => []
  | t, p, offset, n + 1 =>
    if p < 0 then
      mkPt horiz (t + 1) (c0 + offset) :: bresPts a b step horiz c0 (t + 1) (p + a) offset n
    else
      mkPt horiz (t + 1) (c0 + offset + step) ::
        bresPts a b step horiz c0 (t + 1) (p + b) (offset + step) n

/-- The shallow branch of `draw_line` (taken when `abs_m <= 1.0`), after
normalizing so the lower-x endpoint is the start: draw the start, then
iterate `i in 1..=(end_x - start_x)` along x with `a = 2*dy`,
`b = a - 2*dx`, `p = a - dx`. -/
def shallowBranch (start_x start_y end_x end_y dx dy : Int) : List (Int × Int) :=
  let step : Int := if start_y < end_y then 1 else -1
  let a := 2 * dy
  let b := a - 2 * dx
  let p := a - dx
  (start_x, start_y) :: bresPts a b step true start_y start_x p 0 (end_x - start_x).toNat

/-- The steep branch of `draw_line` (taken when `abs_m <= 1.0` fails),
after normalizing so the lower-y endpoint is the start: draw the start,
then iterate `i in 1..=(end_y - start_y)` along y with `a = 2*dx`,
`b = a - 2*dy`, `p = a - dy`. -/
def steepBranch (start_x start_y end_x end_y dx dy : Int) : List (Int × Int) :=
  let step : Int := if start_x < end_x then 1 else -1
  let a := 2 * dx
  let b := a - 2 * dy
  let p := a - dy
  (start_x, start_y) :: bresPts a b step false start_x start_y p 0 (end_y - start_y).toNat

/-- All `draw_pixel` positions of `Canvas::draw_line(x1, y1, x2, y2, _)`,
in call order: the vertical special case (which draws
`y ∈ [start_y, end_y)` at constant x — written here with `min`/`max` for
the source's `if y1 < y2 {(y1, y2)} else {(y2, y1)}` — and does **not**
return early), followed by the generic algorithm's shallow or steep
branch. -/
def drawLinePoints (x1 y1 x2 y2 : Int) : List (Int × Int) :=
  (if x1 = x2 then
      (List.range (max y1 y2 - min y1 y2).toNat).map fun i : Nat =>
        (x1, min y1 y2 + (i : Int))
    else []) ++
  (let dx := |x2 - x1|
   let dy := |y2 - y1|
   if slopeLE1 dy.toNat dx.toNat then
     if x1 < x2 then shallowBranch x1 y1 x2 y2 dx dy else shallowBranch x2 y2 x1 y1 dx dy
   else
     if y1 < y2 then steepBranch x1 y1 x2 y2 dx dy else steepBranch x2 y2 x1 y1 dx dy)

/-- Models `Canvas::draw_line` (the pixel positions do not depend on the canvas,
so the source's interleaved `draw_pixel` calls are the fold of the
position list). -/
def Canvas.draw_line (self : Canvas) (x1 y1 x2 y2 : Int) (color : RGBA) : Canvas :=
  (drawLinePoints x1 y1 x2 y2).foldl (fun cv p => cv.draw_pixel p.1 p.2 color) self

/-- Two pixel positions are 8-adjacent (Chebyshev distance at most 1):
the formal reading of "no gaps" between consecutively drawn pixels. -/
def Adjacent (p q : Int × Int) : Prop :=
  |q.1 - p.1| ≤ 1 ∧ |q.2 - p.2| ≤ 1

/-- Models `Canvas::draw_polygon` (outline): connect consecutive vertices
(`for i in 1..len`, edge from `vertices[i]` to `vertices[i-1]`), then
close the ring from the first to the last vertex; empty list is a no-op. -/
def Canvas.draw_polygon (self : Canvas) (vertices : List (Int × Int)) (color : RGBA) : Canvas :=
  if vertices = [] then self
  else
    let c1 := (List.range (vertices.length - 1)).foldl
      (fun cv i =>
        let p1 := vertices.getD (i + 1) (0, 0)
        let p2 := vertices.getD i (0, 0)
        cv.draw_line p1.1 p1.2 p2.1 p2.2 color) self
    let p1 := vertices.getD 0 (0, 0)
    let p2 := vertices.getD (vertices.length - 1) (0, 0)
    c1.draw_line p1.1 p1.2 p2.1 p2.2 color

/-- Models `Canvas::polygon_buffer_line`: the `draw_line` control flow with
buffer writes instead of `draw_pixel` calls.  With `right = true` every
row write goes through (keep-last); with `right = false` the shallow loop
writes only when the row just advanced (`new_line`).  The vertical
special case writes rows `0..(end_y - start_y)` (indices from zero, not
from `start_y`) and, as in `draw_line`, does not return early.
`none` = an index panicked. -/
def polygon_buffer_line (buff : List Int) (right : Bool) (x1 y1 x2 y2 : Int) :
    Option (List Int) := do
  let buff ←
    (if x1 = x2 then
      (List.range (max y1 y2 - min y1 y2).toNat).foldlM
        (fun bf i => wr bf (i : Int) x1) buff
    else pure buff)
  let dx := |x2 - x1|
  let dy := |y2 - y1|
  if slopeLE1 dy.toNat dx.toNat then
    let (start_x, start_y, end_x, end_y) :=
      if x1 < x2 then (x1, y1, x2, y2) else (x2, y2, x1, y1)
    let step : Int := if start_y < end_y then 1 else -1
    let a := 2 * dy
    let b := a - 2 * dx
    let buff ← wr buff start_y start_x
    let st ← (List.range (end_x - start_x).toNat).foldlM
      (fun (st : Int × Int × Bool × List Int) i => do
        let (p, offset, new_line, bf) := st
        if p < 0 then
          if right ∨ new_line then do
            let bf ← wr bf (start_y + offset) (start_x + (i : Int) + 1)
            pure (p + a, offset, false, bf)
          else
            pure (p + a, offset, new_line, bf)
        else do
          -- `new_line` is set here, so `right || new_line` always writes
          let bf ← wr bf (start_y + offset + step) (start_x + (i : Int) + 1)
          pure (p + b, offset + step, false, bf))
      (a - dx, 0, false, buff)
    pure st.2.2.2
  else
    let (start_x, start_y, end_x, end_y) :=
      if y1 < y2 then (x1, y1, x2, y2) else (x2, y2, x1, y1)
    let step : Int := if start_x < end_x then 1 else -1
    let a := 2 * dx
    let b := a - 2 * dy
    let buff ← wr buff start_y start_x
    let st ← (List.range (end_y - start_y).toNat).foldlM
      (fun (st : Int × Int × List Int) i => do
        let (p, offset, bf) := st
        let pq := if p < 0 then (p + a, offset) else (p + b, offset + step)
        let bf ← wr bf (start_y + (i : Int) + 1) (start_x + pq.2)
        pure (pq.1, pq.2, bf))
      (a - dy, 0, buff)
    pure st.2.2

/-- One boundary chain of `draw_polygon_solid`: the do-while loop feeding
edges `(vertices[vi % len], vertices[(vi+1) % len])` to
`polygon_buffer_line` until `(vi + 1) % len` reaches `endv`.  The loop
stops within `len` edges (the index advances by one mod `len` each pass),
so `len` fuel is never exhausted. -/
def polyChain (verts : List (Int × Int)) (right : Bool) (endv : Nat) :
    Nat → Nat → List Int → Option (List Int)
  | 0, _, _ => none
  | fuel + 1, vert_index, buff => do
    let p1 := verts.getD (vert_index % verts.length) (0, 0)
    let p2 := verts.getD ((vert_index + 1) % verts.length) (0, 0)
    let buff ← polygon_buffer_line buff right p1.1 p1.2 p2.1 p2.2
    if (vert_index + 1) % verts.length = endv then pure buff
    else polyChain verts right endv fuel (vert_index + 1) buff

/-- Models `Canvas::draw_polygon_solid`: find the min-y and max-y vertices
(strict comparisons, first wins), translate so the min-y vertex is the
origin, walk the right chain (`clockwise`: from min to max) overwriting
`right_buff`, walk the left chain the other way filling `left_buff`, then
fill each row `i + start_y` with `x ∈ [left[i]+start_x, right[i]+start_x)`
for `i in 0..dy`.  `none` = a buffer index panicked. -/
def Canvas.draw_polygon_solid (self : Canvas) (vertices : List (Int × Int)) (clockwise : Bool)
    (color : RGBA) : Option Canvas :=
  if vertices = [] then some self
  else do
    let min_vert := (List.range vertices.length).foldl
      (fun mv i => if (vertices.getD i (0, 0)).2 < (vertices.getD mv (0, 0)).2 then i else mv) 0
    let max_vert := (List.range vertices.length).foldl
      (fun mv i => if (vertices.getD mv (0, 0)).2 < (vertices.getD i (0, 0)).2 then i else mv) 0
    let start := vertices.getD min_vert (0, 0)
    let verts := vertices.map fun v => (v.1 - start.1, v.2 - start.2)
    let dy := ((verts.getD max_vert (0, 0)).2 + 1).toNat
    let right_buff ← polyChain verts true
      (if clockwise then max_vert else min_vert) verts.length
      (if clockwise then min_vert else max_vert) (List.replicate dy 0)
    let left_buff ← polyChain verts false
      (if clockwise then min_vert else max_vert) verts.length
      (if clockwise then max_vert else min_vert) (List.replicate dy 0)
    let pts := (List.range dy).flatMap fun i =>
      let yy := (i : Int) + start.2
      let xx1 := left_buff.getD i 0 + start.1
      let xx2 := right_buff.getD i 0 + start.1
      (List.range (xx2 - xx1).toNat).map fun j : Nat => (xx1 + (j : Int), yy)
    pure (pts.foldl (fun cv p => cv.draw_pixel p.1 p.2 color) self)

/-- The spec's pixel-buffer invariant: `buffer.length == width*height`. -/
def Canvas.bufferInv (self : Canvas) : Prop :=
  self.buffer.length = self.width * self.height

/-! ## Theorems: helper lemmas and the claim results -/

/-- Writing back the value already stored at an index leaves a list unchanged. -/
theorem set_get?_self {α : Type _} : ∀ (l : List α) (i : Nat) (a : α),
    l.get? i = some a → l.set i a = l
  | [], i, _, h => by simp at h
  | b :: l, 0, a, h => by
      simp only [List.get?] at h
      cases h
      rfl
  | b :: l, i + 1, a, h => by
      simp only [List.get?] at h
      simpa using set_get?_self l i a h

/-- Row-major grid indexing stays below `width * height`. -/
theorem grid_index_lt {w h x y : Nat} (hx : x < w) (hy : y < h) :
    y * w + x < w * h :=
  calc y * w + x < y * w + w := by omega
    _ = (y + 1) * w := by ring
    _ ≤ h * w := Nat.mul_le_mul_right w hy
    _ = w * h := Nat.mul_comm h w

theorem pixel_inside_iff (c : Canvas) (x y : Int) :
    c.pixel_inside x y = true ↔
      0 ≤ x ∧ x < (c.width : Int) ∧ 0 ≤ y ∧ y < (c.height : Int) := by
  simp [Canvas.pixel_inside, and_assoc]

/-- C1 (amended): `get(x,y)` and `set(x,y,c)` return an absent result
exactly when the flat index `y*width + x` is at least `width*height`
(assuming the length invariant); `set` leaves the buffer unchanged in that
case.  The claim's version — absent iff `(x,y)` is out of bounds — fails:
an out-of-bounds `x ≥ width` can still yield a present result by wrapping
into a later row (see the counterexample). -/
theorem C1_get_set_present_iff_flat_index_lt (c : Canvas) (x y : Nat) (color : RGB)
    (hinv : c.buffer.length = c.width * c.height) :
    ((c.get x y).isSome ↔ y * c.width + x < c.width * c.height) ∧
    ((c.set x y color).isSome ↔ y * c.width + x < c.width * c.height) := by
  constructor
  · rw [Canvas.get, ← hinv, List.get?_eq_getElem?]
    simp [Option.isSome_iff_ne_none, List.getElem?_eq_none_iff, Nat.not_le]
  · rw [Canvas.set, ← hinv]
    split <;> simp_all

/-- C1 witness: the amended statement evaluated on a fresh 4×4 canvas at `(5, 0)`. -/
theorem C1_witness :
    (Canvas.new 4 4).buffer.length = (Canvas.new 4 4).width * (Canvas.new 4 4).height ∧
    ((((Canvas.new 4 4).get 5 0).isSome ↔ 0 * (Canvas.new 4 4).width + 5 <
        (Canvas.new 4 4).width * (Canvas.new 4 4).height) ∧
      ((((Canvas.new 4 4)).set 5 0 ⟨7, 7, 7⟩).isSome ↔ 0 * (Canvas.new 4 4).width + 5 <
        (Canvas.new 4 4).width * (Canvas.new 4 4).height)) :=
  ⟨by decide, C1_get_set_present_iff_flat_index_lt (Canvas.new 4 4) 5 0 ⟨7, 7, 7⟩ (by decide)⟩

/-- C1 counterexample: on `Canvas.new 4 4` the pair `(5, 0)` is out of
bounds (`5 ≥ width`), yet `get` returns a present pixel and `set` mutates
the buffer (the write lands on the wrapped pixel `(1, 1)`), contradicting
the claim that out-of-bounds `get`/`set` always return absent and leave
the buffer unchanged. -/
theorem C1_counterexample :
    ¬ 5 < (Canvas.new 4 4).width ∧
    (Canvas.new 4 4).get 5 0 = some ⟨0, 0, 0⟩ ∧
    (((Canvas.new 4 4).set 5 0 ⟨7, 7, 7⟩).bind fun c2 => c2.get 1 1) = some ⟨7, 7, 7⟩ := by
  decide

/-- C7: for an in-bounds pixel, `draw_pixel` with paint alpha 255 replaces
the pixel with the paint's RGB irrespective of prior contents, and
`draw_pixel` with paint alpha 0 returns the canvas unchanged. -/
theorem C7_draw_pixel_alpha_extremes (c : Canvas) (x y : Int) (r g b : Nat)
    (hinv : c.buffer.length = c.width * c.height)
    (hin : c.pixel_inside x y = true) :
    (c.draw_pixel x y ⟨r, g, b, 255⟩).get x.toNat y.toNat = some ⟨r, g, b⟩ ∧
    c.draw_pixel x y ⟨r, g, b, 0⟩ = c := by
  obtain ⟨hx0, hxw, hy0, hyh⟩ := (pixel_inside_iff c x y).1 hin
  have hxw' : x.toNat < c.width := by omega
  have hyh' : y.toNat < c.height := by omega
  have hidx : y.toNat * c.width + x.toNat < c.buffer.length := by
    rw [hinv]; exact grid_index_lt hxw' hyh'
  obtain ⟨old, hold⟩ : ∃ old, c.buffer.get? (y.toNat * c.width + x.toNat) = some old := by
    rw [List.get?_eq_getElem?]
    exact ⟨_, List.getElem?_eq_getElem hidx⟩
  have hget : c.get x.toNat y.toNat = some old := hold
  constructor
  · have hadd : old.add_rgba ⟨r, g, b, 255⟩ = ⟨r, g, b⟩ := by
      simp [RGB.add_rgba, RGB.lerp255, RGBA.to_rgb,
        Nat.mul_div_cancel_left _ (by norm_num : 0 < 255)]
    rw [Canvas.draw_pixel, if_pos hin, hget]
    dsimp only
    rw [hadd, Canvas.set, if_pos hidx]
    simp [Canvas.get, List.get?_eq_getElem?, List.getElem?_set_self hidx]
  · have hadd : old.add_rgba ⟨r, g, b, 0⟩ = old := by
      simp [RGB.add_rgba, RGB.lerp255, RGBA.to_rgb,
        Nat.mul_div_cancel_left _ (by norm_num : 0 < 255)]
    rw [Canvas.draw_pixel, if_pos hin, hget]
    dsimp only
    rw [hadd, Canvas.set, if_pos hidx]
    simp [set_get?_self _ _ _ hold]

/-- C7 witness: the theorem applied on a fresh 3×3 canvas at pixel `(1, 2)`. -/
theorem C7_witness :
    (Canvas.new 3 3).buffer.length = (Canvas.new 3 3).width * (Canvas.new 3 3).height ∧
    (Canvas.new 3 3).pixel_inside 1 2 = true ∧
    (((Canvas.new 3 3).draw_pixel 1 2 ⟨9, 8, 7, 255⟩).get (Int.toNat 1) (Int.toNat 2) =
        some ⟨9, 8, 7⟩ ∧
      (Canvas.new 3 3).draw_pixel 1 2 ⟨9, 8, 7, 0⟩ = Canvas.new 3 3) :=
  ⟨by decide, by decide,
    C7_draw_pixel_alpha_extremes (Canvas.new 3 3) 1 2 9 8 7 (by decide) (by decide)⟩

theorem r32_of_le {n : Nat} (h : n ≤ 2 ^ 24) : r32 n = n := by
  rw [r32, if_pos h]

theorem slopeLE1_zero_dx (dy : Nat) : slopeLE1 dy 0 = false := by
  simp [slopeLE1]

/-- Below `2^24` the `f32` slope test is the exact comparison `dy ≤ dx`. -/
theorem slopeLE1_small {dy dx : Nat} (hdy : dy ≤ 2 ^ 24) (hdx : dx ≤ 2 ^ 24) :
    slopeLE1 dy dx = (decide (dx ≠ 0) && decide (dy ≤ dx)) := by
  rw [slopeLE1, r32_of_le hdy, r32_of_le hdx]

/-- When `a = 0` and the decision variable starts negative it stays
negative, so the offset never moves: the loop emits a straight run along
the major axis. -/
theorem bresPts_const (b step : Int) (horiz : Bool) (c0 : Int) :
    ∀ (n : Nat) (t p offset : Int), p < 0 →
      bresPts 0 b step horiz c0 t p offset n =
        (List.range n).map fun i : Nat => mkPt horiz (t + 1 + (i : Int)) (c0 + offset) := by
  intro n
  induction n with
  | zero => intro t p offset _; rfl
  | succ n ih =>
    intro t p offset hp
    rw [bresPts, if_pos hp, ih (t + 1) (p + 0) offset (by omega), List.range_succ_eq_map,
      List.map_cons, List.map_map]
    congr 1
    · norm_num
    · refine List.map_congr_left fun i _ => ?_
      simp only [Function.comp]
      congr 1
      omega

/-- The steep branch on a vertical segment (`dx = 0`) with `start_y < end_y`
emits the full column `[start_y, end_y]`. -/
theorem steepBranch_vertical (x sy ey : Int) (hlt : sy < ey) :
    steepBranch x sy x ey 0 (ey - sy) =
      (List.range ((ey - sy).toNat + 1)).map fun i : Nat => (x, sy + (i : Int)) := by
  rw [steepBranch]
  simp only [lt_irrefl, if_neg (lt_irrefl x)]
  rw [show (2 : Int) * 0 - (ey - sy) = -(ey - sy) by ring]
  rw [show (2 : Int) * 0 = 0 from by ring] -- hmm
  rw [bresPts_const _ _ _ _ _ _ _ _ (by omega)]
  rw [List.range_succ_eq_map, List.map_cons, List.map_map]
  congr 1
  · simp [mkPt]
  · refine List.map_congr_left fun i _ => ?_
    simp only [Function.comp]
    simp [mkPt, Prod.ext_iff]
    omega

/-- Consecutive pixels emitted by the stepping loop are 8-adjacent: the
major coordinate advances by one and the offset moves by `0` or `step`. -/
theorem bresPts_chain (a b step : Int) (horiz : Bool) (c0 : Int)
    (hstep : step = 1 ∨ step = -1) :
    ∀ (n : Nat) (t p offset : Int),
      List.Chain' Adjacent
        (mkPt horiz t (c0 + offset) :: bresPts a b step horiz c0 t p offset n) := by
  intro n
  induction n with
  | zero => intro t p offset; simp [bresPts]
  | succ n ih =>
    intro t p offset
    rw [bresPts]
    by_cases hp : p < 0
    · rw [if_pos hp, List.chain'_cons]
      refine ⟨?_, ih (t + 1) (p + a) offset⟩
      rcases hstep with h1 | h1 <;> subst h1 <;> cases horiz <;>
        simp [Adjacent, mkPt, abs_le]
    · rw [if_neg hp, List.chain'_cons]
      constructor
      · rcases hstep with h1 | h1 <;> subst h1 <;> cases horiz <;>
          simp [Adjacent, mkPt, abs_le]
      · have := ih (t + 1) (p + b) (offset + step)
        rwa [← add_assoc] at this

/-- The Bresenham invariant: entering the loop with `i` of the `M` major
steps done, decision variable `p = 2m(i+1) - M(2k+1)` and offset `step*k`
with `2Mk ≤ 2mi + M < 2M(k+1)` (so `k = ⌊(2mi + M)/(2M)⌋`), the last
pixel emitted lands at major coordinate `t + n` and minor offset
`step * m` — in particular the normalized far endpoint is always drawn. -/
theorem bresPts_cons_getLast (M m step : Int) (horiz : Bool) (c0 : Int)
    (hM : 0 < M) (hm : 0 ≤ m) (hmM : m ≤ M) :
    ∀ (n : Nat) (t i p k : Int),
      i + n = M →
      p = 2 * m * (i + 1) - M * (2 * k + 1) →
      2 * M * k ≤ 2 * m * i + M →
      2 * m * i + M < 2 * M * (k + 1) →
      (mkPt horiz t (c0 + step * k) ::
          bresPts (2 * m) (2 * m - 2 * M) step horiz c0 t p (step * k) n).getLast? =
        some (mkPt horiz (t + n) (c0 + step * m)) := by
  intro n
  induction n with
  | zero =>
    intro t i p k hi hp h1 h2
    have hiM : M = i := by omega
    subst hiM
    have hk1 : (2 * k) * M ≤ (2 * m + 1) * M := by linarith
    have hk2 : (2 * m + 1) * M < (2 * k + 2) * M := by linarith
    have e1 : 2 * k ≤ 2 * m + 1 := le_of_mul_le_mul_right hk1 hM
    have e2 : 2 * m + 1 < 2 * k + 2 := lt_of_mul_lt_mul_right hk2 hM.le
    have hkm : k = m := by omega
    subst hkm
    simp [bresPts]
  | succ n ih =>
    intro t i p k hi hp h1 h2
    rw [bresPts]
    by_cases hp0 : p < 0
    · rw [if_pos hp0, List.getLast?_cons_cons]
      rw [hp] at hp0
      have h2' : 2 * m * (i + 1) + M < 2 * M * (k + 1) := by linarith
      have h1' : 2 * M * k ≤ 2 * m * (i + 1) + M := by linarith
      have hres := ih (t + 1) (i + 1) (p + 2 * m) k (by omega) (by rw [hp]; ring) h1' h2'
      rw [hres]
      congr 2
      push_cast
      ring
    · rw [if_neg hp0, List.getLast?_cons_cons]
      have hp0' : (0 : Int) ≤ 2 * m * (i + 1) - M * (2 * k + 1) := by rw [← hp]; omega
      have h1' : 2 * M * (k + 1) ≤ 2 * m * (i + 1) + M := by linarith
      have h2' : 2 * m * (i + 1) + M < 2 * M * (k + 1 + 1) := by linarith
      rw [show c0 + step * k + step = c0 + step * (k + 1) from by ring,
        show step * k + step = step * (k + 1) from by ring]
      have hres := ih (t + 1) (i + 1) (p + (2 * m - 2 * M)) (k + 1) (by omega)
        (by rw [hp]; ring) h1' h2'
      rw [hres]
      congr 2
      push_cast
      ring

/-- A whole normalized branch run: start pixel plus `M` loop steps with
the source's initial values `p = 2m - M`, offset `0`.  The emitted pixels
form an 8-adjacent chain whose last element is the normalized far
endpoint. -/
theorem bres_run_spec (M m step : Int) (horiz : Bool) (c0 t : Int)
    (hM : 0 < M) (hm : 0 ≤ m) (hmM : m ≤ M) (hstep : step = 1 ∨ step = -1) :
    List.Chain' Adjacent
      (mkPt horiz t (c0 + 0) ::
        bresPts (2 * m) (2 * m - 2 * M) step horiz c0 t (2 * m - M) 0 M.toNat) ∧
    (mkPt horiz t (c0 + 0) ::
        bresPts (2 * m) (2 * m - 2 * M) step horiz c0 t (2 * m - M) 0 M.toNat).getLast? =
      some (mkPt horiz (t + M) (c0 + step * m)) := by
  constructor
  · exact bresPts_chain _ _ _ _ _ hstep _ _ _ _
  · have hres := bresPts_cons_getLast M m step horiz c0 hM hm hmM M.toNat t 0 (2 * m - M) 0
      (by simp [Int.toNat_of_nonneg hM.le]) (by ring)
      (by have : (0 : Int) ≤ M := hM.le; nlinarith)
      (by nlinarith)
    rw [mul_zero] at hres
    rwa [Int.toNat_of_nonneg hM.le] at hres

/-- When the decision variable starts nonnegative and `b ≥ 0` it stays
nonnegative forever, so the offset advances by `step` every single
iteration (the degenerate behaviour behind the `f32` counterexample). -/
theorem bresPts_all_pos (a b step : Int) (horiz : Bool) (c0 : Int) (hb : 0 ≤ b) :
    ∀ (n : Nat) (t p offset : Int), 0 ≤ p →
      bresPts a b step horiz c0 t p offset n =
        (List.range n).map fun i : Nat =>
          mkPt horiz (t + 1 + (i : Int)) (c0 + offset + step * ((i : Int) + 1)) := by
  intro n
  induction n with
  | zero => intro t p offset _; rfl
  | succ n ih =>
    intro t p offset hp
    rw [bresPts, if_neg (by omega), ih (t + 1) (p + b) (offset + step) (by omega),
      List.range_succ_eq_map, List.map_cons, List.map_map]
    congr 1
    · norm_num
    · refine List.map_congr_left fun i _ => ?_
      simp only [Function.comp]
      congr 1
      · omega
      · push_cast
        ring

/-- The full `draw_line` pixel trace of a vertical call with distinct
endpoints: the special-case column `[min, max)` followed by the steep
branch's second full column `[min, max]`. -/
theorem drawLinePoints_vertical_eq (x y1 y2 : Int) (h : y1 ≠ y2) :
    drawLinePoints x y1 x y2 =
      ((List.range (max y1 y2 - min y1 y2).toNat).map fun i : Nat =>
        (x, min y1 y2 + (i : Int))) ++
      ((List.range ((max y1 y2 - min y1 y2).toNat + 1)).map fun i : Nat =>
        (x, min y1 y2 + (i : Int))) := by
  have hmain : (if slopeLE1 (|y2 - y1|).toNat (|x - x|).toNat then
        if x < x then shallowBranch x y1 x y2 (|x - x|) (|y2 - y1|)
        else shallowBranch x y2 x y1 (|x - x|) (|y2 - y1|)
      else
        if y1 < y2 then steepBranch x y1 x y2 (|x - x|) (|y2 - y1|)
        else steepBranch x y2 x y1 (|x - x|) (|y2 - y1|)) =
      (List.range ((max y1 y2 - min y1 y2).toNat + 1)).map fun i : Nat =>
        (x, min y1 y2 + (i : Int)) := by
    rw [sub_self, abs_zero, Int.toNat_zero, slopeLE1_zero_dx]
    simp only [Bool.false_eq_true, if_false]
    rcases h.lt_or_lt with hlt | hlt
    · rw [if_pos hlt, abs_of_nonneg (by omega : (0 : Int) ≤ y2 - y1),
        steepBranch_vertical x y1 y2 hlt,
        min_eq_left hlt.le, max_eq_right hlt.le]
    · rw [if_neg (by omega), abs_of_nonpos (by omega : y2 - y1 ≤ 0), neg_sub,
        steepBranch_vertical x y2 y1 hlt,
        min_eq_right hlt.le, max_eq_left hlt.le]
  rw [drawLinePoints]
  rw [if_pos rfl]
  exact congrArg _ hmain

/-- C6: for every vertical call (`x1 == x2`, `y1 ≠ y2`) the special case
iterates y over `[min, max)` at constant x, and, because it does not
return early, the generic algorithm still runs afterward with `dx = 0`
(`abs_m` infinite, hence the steep branch, whose offset never moves) and
deposits a second pass over the full column `[min, max]`: every interior
pixel of the column receives two `draw_pixel` compositing calls —
observable as double blending for translucent paint. -/
theorem C6_vertical_line_double_draw (x y1 y2 : Int) (h : y1 ≠ y2) :
    drawLinePoints x y1 x y2 =
      ((List.range (max y1 y2 - min y1 y2).toNat).map fun i : Nat =>
        (x, min y1 y2 + (i : Int))) ++
      ((List.range ((max y1 y2 - min y1 y2).toNat + 1)).map fun i : Nat =>
        (x, min y1 y2 + (i : Int))) :=
  drawLinePoints_vertical_eq x y1 y2 h

/-- C6 witness: the closed form evaluated for the vertical line from
`(7, 0)` to `(7, 2)`. -/
theorem C6_witness :
    (0 : Int) ≠ (2 : Int) ∧
    drawLinePoints 7 0 7 2 =
      ((List.range (max (0 : Int) 2 - min (0 : Int) 2).toNat).map fun i : Nat =>
        ((7 : Int), min (0 : Int) 2 + (i : Int))) ++
      ((List.range ((max (0 : Int) 2 - min (0 : Int) 2).toNat + 1)).map fun i : Nat =>
        ((7 : Int), min (0 : Int) 2 + (i : Int))) :=
  ⟨by decide, C6_vertical_line_double_draw 7 0 2 (by decide)⟩

/-- A degenerate call (`x1 == x2`, `y1 == y2`) draws exactly one pixel:
the vertical pre-pass is empty and the steep branch runs zero iterations. -/
theorem drawLinePoints_self (x y : Int) : drawLinePoints x y x y = [(x, y)] := by
  rw [drawLinePoints, if_pos rfl]
  simp [steepBranch, slopeLE1_zero_dx, bresPts]

/-- Lemma: `shallowBranch` written as a start pixel plus a plain `bresPts` run. -/
theorem shallowBranch_eq_run (sx sy ex ey dx dy : Int) (hex : ex = sx + dx) :
    shallowBranch sx sy ex ey dx dy =
      mkPt true sx (sy + 0) ::
        bresPts (2 * dy) (2 * dy - 2 * dx) (if sy < ey then (1 : Int) else -1) true sy sx
          (2 * dy - dx) 0 dx.toNat := by
  subst hex
  simp [shallowBranch, mkPt]

/-- Lemma: `steepBranch` written as a start pixel plus a plain `bresPts` run. -/
theorem steepBranch_eq_run (sx sy ex ey dx dy : Int) (hey : ey = sy + dy) :
    steepBranch sx sy ex ey dx dy =
      mkPt false sy (sx + 0) ::
        bresPts (2 * dx) (2 * dx - 2 * dy) (if sx < ex then (1 : Int) else -1) false sx sy
          (2 * dx - dy) 0 dy.toNat := by
  subst hey
  simp [steepBranch, mkPt]

/-- The normalized shallow branch: an 8-adjacent chain containing both
normalized endpoints. -/
theorem shallowBranch_contract (sx sy ex ey dx dy : Int)
    (hdx : 0 < dx) (hdy : 0 ≤ dy) (hle : dy ≤ dx)
    (hex : ex = sx + dx)
    (hey : sy + (if sy < ey then (1 : Int) else -1) * dy = ey) :
    (shallowBranch sx sy ex ey dx dy).Chain' Adjacent ∧
    (sx, sy) ∈ shallowBranch sx sy ex ey dx dy ∧
    (ex, ey) ∈ shallowBranch sx sy ex ey dx dy := by
  have hstep : (if sy < ey then (1 : Int) else -1) = 1 ∨
      (if sy < ey then (1 : Int) else -1) = -1 := by split <;> simp
  obtain ⟨hchain, hlast⟩ := bres_run_spec dx dy _ true sy sx hdx hdy hle hstep
  rw [shallowBranch_eq_run sx sy ex ey dx dy hex]
  have hhead : mkPt true sx (sy + 0) = (sx, sy) := by simp [mkPt]
  refine ⟨hchain, ?_, ?_⟩
  · rw [hhead]
    exact List.mem_cons_self _ _
  · refine List.mem_of_mem_getLast? (l := _) (a := (ex, ey)) ?_
    rw [hlast]
    simp only [Option.mem_def, Option.some.injEq, mkPt, if_pos trivial]
    rw [Prod.ext_iff]
    exact ⟨hex.symm, hey⟩

/-- The normalized steep branch: an 8-adjacent chain containing both
normalized endpoints. -/
theorem steepBranch_contract (sx sy ex ey dx dy : Int)
    (hdy : 0 < dy) (hdx : 0 ≤ dx) (hle : dx ≤ dy)
    (hey : ey = sy + dy)
    (hex : sx + (if sx < ex then (1 : Int) else -1) * dx = ex) :
    (steepBranch sx sy ex ey dx dy).Chain' Adjacent ∧
    (sx, sy) ∈ steepBranch sx sy ex ey dx dy ∧
    (ex, ey) ∈ steepBranch sx sy ex ey dx dy := by
  have hstep : (if sx < ex then (1 : Int) else -1) = 1 ∨
      (if sx < ex then (1 : Int) else -1) = -1 := by split <;> simp
  obtain ⟨hchain, hlast⟩ := bres_run_spec dy dx _ false sx sy hdy hdx hle hstep
  rw [steepBranch_eq_run sx sy ex ey dx dy hey]
  have hhead : mkPt false sy (sx + 0) = (sx, sy) := by simp [mkPt]
  refine ⟨hchain, ?_, ?_⟩
  · rw [hhead]
    exact List.mem_cons_self _ _
  · refine List.mem_of_mem_getLast? (l := _) (a := (ex, ey)) ?_
    rw [hlast]
    simp only [Option.mem_def, Option.some.injEq, mkPt, Bool.false_eq_true, if_false]
    rw [Prod.ext_iff]
    exact ⟨hex, hey.symm⟩

/-- Membership in a column segment of length `n + 1`. -/
theorem mem_column_map {x lo : Int} {n : Nat} {z : Int} (h1 : lo ≤ z) (h2 : z ≤ lo + n) :
    (x, z) ∈ (List.range (n + 1)).map fun i : Nat => (x, lo + (i : Int)) := by
  refine List.mem_map.mpr ⟨(z - lo).toNat, List.mem_range.mpr (by omega), ?_⟩
  rw [Prod.ext_iff]
  constructor
  · rfl
  · simp
    omega

/-- C8 (amended): for endpoints whose deltas stay within `2^24` — where
the `f32` slope test agrees with the exact comparison `dy ≤ dx` —
`draw_line` passes both endpoints to `draw_pixel`, the drawn positions
are the trace of an 8-adjacent path containing both endpoints (no gaps),
and coincident endpoints yield the single pixel `[(x1, y1)]`.  Beyond
`2^24` the claim fails: `f32` rounding can classify a strictly steep line
as shallow and the far endpoint is then never drawn (see the
counterexample). -/
theorem C8_line_contract (x1 y1 x2 y2 : Int)
    (hdx24 : |x2 - x1| ≤ 2 ^ 24) (hdy24 : |y2 - y1| ≤ 2 ^ 24) :
    (x1, y1) ∈ drawLinePoints x1 y1 x2 y2 ∧
    (x2, y2) ∈ drawLinePoints x1 y1 x2 y2 ∧
    (∃ l : List (Int × Int), l.Chain' Adjacent ∧
        l.toFinset = (drawLinePoints x1 y1 x2 y2).toFinset ∧
        (x1, y1) ∈ l ∧ (x2, y2) ∈ l) ∧
    (x1 = x2 → y1 = y2 → drawLinePoints x1 y1 x2 y2 = [(x1, y1)]) := by
  have h224 : ((2 : Int) ^ 24) = 16777216 := by norm_num
  rw [h224] at hdx24 hdy24
  by_cases hxx : x1 = x2
  · subst hxx
    by_cases hyy : y1 = y2
    · subst hyy
      rw [drawLinePoints_self]
      exact ⟨List.mem_cons_self _ _, List.mem_cons_self _ _,
        ⟨[(x1, y1)], by simp, rfl, List.mem_cons_self _ _, List.mem_cons_self _ _⟩,
        fun _ _ => rfl⟩
    · have hform := drawLinePoints_vertical_eq x1 y1 y2 hyy
      have hb1 : min y1 y2 ≤ y1 := min_le_left _ _
      have hb2 : y1 ≤ max y1 y2 := le_max_left _ _
      have hb3 : min y1 y2 ≤ y2 := min_le_right _ _
      have hb4 : y2 ≤ max y1 y2 := le_max_right _ _
      have hspan : min y1 y2 + ((max y1 y2 - min y1 y2).toNat : Int) = max y1 y2 := by
        have := min_le_max (a := y1) (b := y2)
        omega
      have hm1 : (x1, y1) ∈ (List.range ((max y1 y2 - min y1 y2).toNat + 1)).map
          fun i : Nat => (x1, min y1 y2 + (i : Int)) := mem_column_map hb1 (by omega)
      have hm2 : (x1, y2) ∈ (List.range ((max y1 y2 - min y1 y2).toNat + 1)).map
          fun i : Nat => (x1, min y1 y2 + (i : Int)) := mem_column_map hb3 (by omega)
      refine ⟨by rw [hform]; exact List.mem_append_right _ hm1,
        by rw [hform]; exact List.mem_append_right _ hm2,
        ⟨(List.range ((max y1 y2 - min y1 y2).toNat + 1)).map
          fun i : Nat => (x1, min y1 y2 + (i : Int)), ?_, ?_, hm1, hm2⟩,
        fun _ h' => absurd h' hyy⟩
      · rw [List.chain'_map, List.chain'_range_succ]
        intro m _
        constructor <;> simp [abs_le]
      · rw [hform, List.toFinset_append]
        refine (Finset.union_eq_right.mpr ?_).symm
        intro p hp
        rw [List.mem_toFinset] at hp ⊢
        obtain ⟨i, hi, rfl⟩ := List.mem_map.1 hp
        rw [List.mem_range] at hi
        exact List.mem_map.mpr ⟨i, List.mem_range.mpr (by omega), rfl⟩
  · have hform : drawLinePoints x1 y1 x2 y2 =
        (if slopeLE1 (|y2 - y1|).toNat (|x2 - x1|).toNat then
          if x1 < x2 then shallowBranch x1 y1 x2 y2 (|x2 - x1|) (|y2 - y1|)
          else shallowBranch x2 y2 x1 y1 (|x2 - x1|) (|y2 - y1|)
        else
          if y1 < y2 then steepBranch x1 y1 x2 y2 (|x2 - x1|) (|y2 - y1|)
          else steepBranch x2 y2 x1 y1 (|x2 - x1|) (|y2 - y1|)) := by
      rw [drawLinePoints, if_neg hxx, List.nil_append]
    have hdxpos : 0 < |x2 - x1| := abs_pos.mpr (sub_ne_zero.mpr (Ne.symm hxx))
    have habsx : |x2 - x1| = x2 - x1 ∨ |x2 - x1| = -(x2 - x1) := abs_choice (x2 - x1)
    have habsy : |y2 - y1| = y2 - y1 ∨ |y2 - y1| = -(y2 - y1) := abs_choice (y2 - y1)
    have habsxnn : 0 ≤ |x2 - x1| := abs_nonneg _
    have habsynn : 0 ≤ |y2 - y1| := abs_nonneg _
    have hslope : slopeLE1 (|y2 - y1|).toNat (|x2 - x1|).toNat =
        (decide ((|x2 - x1|).toNat ≠ 0) && decide ((|y2 - y1|).toNat ≤ (|x2 - x1|).toNat)) :=
      slopeLE1_small (by omega) (by omega)
    by_cases hsh : (|y2 - y1|).toNat ≤ (|x2 - x1|).toNat
    · have hcond : slopeLE1 (|y2 - y1|).toNat (|x2 - x1|).toNat = true := by
        rw [hslope]
        simp only [Bool.and_eq_true, decide_eq_true_eq]
        exact ⟨by omega, hsh⟩
      rw [hform, hcond, if_pos rfl]
      by_cases hlt : x1 < x2
      · rw [if_pos hlt]
        obtain ⟨hchain, hmem1, hmem2⟩ := shallowBranch_contract x1 y1 x2 y2
          (|x2 - x1|) (|y2 - y1|) hdxpos habsynn (by omega) (by omega)
          (by split <;> rename_i hy <;> omega)
        exact ⟨hmem1, hmem2, ⟨_, hchain, rfl, hmem1, hmem2⟩, fun h _ => absurd h hxx⟩
      · rw [if_neg hlt]
        obtain ⟨hchain, hmem1, hmem2⟩ := shallowBranch_contract x2 y2 x1 y1
          (|x2 - x1|) (|y2 - y1|) hdxpos habsynn (by omega) (by omega)
          (by split <;> rename_i hy <;> omega)
        exact ⟨hmem2, hmem1, ⟨_, hchain, rfl, hmem2, hmem1⟩, fun h _ => absurd h hxx⟩
    · have hcond : slopeLE1 (|y2 - y1|).toNat (|x2 - x1|).toNat = false := by
        rw [hslope]
        simp [hsh]
      rw [hform, hcond]
      simp only [Bool.false_eq_true, if_false]
      have hdypos : 0 < |y2 - y1| := by omega
      by_cases hlt : y1 < y2
      · rw [if_pos hlt]
        obtain ⟨hchain, hmem1, hmem2⟩ := steepBranch_contract x1 y1 x2 y2
          (|x2 - x1|) (|y2 - y1|) hdypos habsxnn (by omega) (by omega)
          (by split <;> rename_i hx <;> omega)
        exact ⟨hmem1, hmem2, ⟨_, hchain, rfl, hmem1, hmem2⟩, fun h _ => absurd h hxx⟩
      · rw [if_neg hlt]
        obtain ⟨hchain, hmem1, hmem2⟩ := steepBranch_contract x2 y2 x1 y1
          (|x2 - x1|) (|y2 - y1|) hdypos habsxnn (by omega) (by omega)
          (by split <;> rename_i hx <;> omega)
        exact ⟨hmem2, hmem1, ⟨_, hchain, rfl, hmem2, hmem1⟩, fun h _ => absurd h hxx⟩

/-- C8 witness: the contract applied to the line from `(0,0)` to `(3,1)`. -/
theorem C8_witness :
    |(3 : Int) - 0| ≤ 2 ^ 24 ∧ |(1 : Int) - 0| ≤ 2 ^ 24 ∧
    (((0 : Int), (0 : Int)) ∈ drawLinePoints 0 0 3 1 ∧
      ((3 : Int), (1 : Int)) ∈ drawLinePoints 0 0 3 1 ∧
      (∃ l : List (Int × Int), l.Chain' Adjacent ∧
          l.toFinset = (drawLinePoints 0 0 3 1).toFinset ∧
          ((0 : Int), (0 : Int)) ∈ l ∧ ((3 : Int), (1 : Int)) ∈ l) ∧
      ((0 : Int) = 3 → (0 : Int) = 1 → drawLinePoints 0 0 3 1 = [(0, 0)])) :=
  ⟨by norm_num, by norm_num, C8_line_contract 0 0 3 1 (by norm_num) (by norm_num)⟩

/-- C8 counterexample: the claim quantifies over *every* pair of integer
endpoints, but for `(0, 0) → (2^24, 2^24 + 1)` — a strictly steep line —
both deltas round to the same `f32` (`r32 (2^24 + 1) = 2^24`, a
round-to-even tie), the slope test sees `1.0 ≤ 1.0` and takes the shallow
branch; there `p = 2*dy - dx > 0` and `b = 2*dy - 2*dx = 2 > 0`, so the
offset advances every iteration, the trace is the diagonal `(j, j)`, and
the far endpoint is never passed to `draw_pixel`. -/
theorem C8_counterexample :
    ((2 ^ 24 : Int), (2 ^ 24 + 1 : Int)) ∉ drawLinePoints 0 0 (2 ^ 24) (2 ^ 24 + 1) := by
  intro hmem
  have ha1 : |((2 : Int) ^ 24 + 1) - 0| = 2 ^ 24 + 1 := by norm_num
  have ha2 : |(2 : Int) ^ 24 - 0| = 2 ^ 24 := by norm_num
  have hc : slopeLE1 ((2 : Int) ^ 24 + 1).toNat ((2 : Int) ^ 24).toNat = true := by
    have e1 : ((2 : Int) ^ 24 + 1).toNat = 16777217 := by
      rw [show ((2 : Int) ^ 24 + 1) = 16777217 from by norm_num]
      rfl
    have e2 : ((2 : Int) ^ 24).toNat = 16777216 := by
      rw [show ((2 : Int) ^ 24) = 16777216 from by norm_num]
      rfl
    rw [e1, e2]
    decide
  have hform : drawLinePoints 0 0 (2 ^ 24) (2 ^ 24 + 1) =
      (if slopeLE1 (|(2 ^ 24 + 1 : Int) - 0|).toNat (|(2 ^ 24 : Int) - 0|).toNat then
        if (0 : Int) < 2 ^ 24 then
          shallowBranch 0 0 (2 ^ 24) (2 ^ 24 + 1) (|(2 ^ 24 : Int) - 0|) (|(2 ^ 24 + 1 : Int) - 0|)
        else
          shallowBranch (2 ^ 24) (2 ^ 24 + 1) 0 0 (|(2 ^ 24 : Int) - 0|) (|(2 ^ 24 + 1 : Int) - 0|)
      else
        if (0 : Int) < 2 ^ 24 + 1 then
          steepBranch 0 0 (2 ^ 24) (2 ^ 24 + 1) (|(2 ^ 24 : Int) - 0|) (|(2 ^ 24 + 1 : Int) - 0|)
        else
          steepBranch (2 ^ 24) (2 ^ 24 + 1) 0 0 (|(2 ^ 24 : Int) - 0|) (|(2 ^ 24 + 1 : Int) - 0|)) := by
    rw [drawLinePoints, if_neg (by norm_num : ¬ (0 : Int) = 2 ^ 24), List.nil_append]
  have hbranch : drawLinePoints 0 0 (2 ^ 24) (2 ^ 24 + 1) =
      shallowBranch 0 0 (2 ^ 24) (2 ^ 24 + 1) (2 ^ 24) (2 ^ 24 + 1) := by
    rw [hform, ha1, ha2, hc]
    norm_num
  rw [hbranch,
    shallowBranch_eq_run 0 0 (2 ^ 24) (2 ^ 24 + 1) (2 ^ 24) (2 ^ 24 + 1) (by ring),
    show (if (0 : Int) < 2 ^ 24 + 1 then (1 : Int) else -1) = 1 from by norm_num,
    bresPts_all_pos _ _ _ _ _ (by norm_num) _ _ _ _ (by norm_num)] at hmem
  rcases List.mem_cons.1 hmem with heq | hmap
  · rw [Prod.ext_iff] at heq
    have h1 := heq.1
    rw [mkPt] at h1
    norm_num at h1
  · obtain ⟨i, _, heq⟩ := List.mem_map.1 hmap
    rw [mkPt, if_pos rfl, Prod.ext_iff] at heq
    obtain ⟨h1, h2⟩ := heq
    have h224 : ((2 : Int) ^ 24) = 16777216 := by norm_num
    rw [h224] at h1 h2
    omega

set_option maxRecDepth 4000 in
/-- C4 counterexample: with `clockwise = true` — as the claim demands —
the right chain walks only the single edge from the min-y vertex and
records `right = 0` on every row, so every span `[left+2, 0+2)` is empty
and nothing at all is drawn: pixel `(4, 4)` remains black, not blue.
(The vertex ring `(2,2) → (2,6) → (6,6) → (6,2)` winds counter-clockwise
in screen coordinates, so the claim's flag disagrees with the winding.) -/
theorem C4_counterexample :
    (((Canvas.new 10 10).draw_polygon_solid [(2, 2), (2, 6), (6, 6), (6, 2)] true
        ⟨0, 0, 255, 255⟩).bind fun c2 => c2.get 4 4) = some ⟨0, 0, 0⟩ ∧
    some (⟨0, 0, 0⟩ : RGB) ≠ some (⟨0, 0, 255⟩ : RGB) := by
  constructor
  · decide
  · decide

set_option maxRecDepth 4000 in
/-- C4 (amended): the described fill holds with `clockwise = false` (the
flag matching the actual winding of the listed vertices): on a 10×10
black canvas, `draw_polygon_solid([(2,2),(2,6),(6,6),(6,2)], false,
{0,0,255,255})` paints `(4, 4)` blue and leaves `(0, 0)` black. -/
theorem C4_polygon_fill_square :
    (((Canvas.new 10 10).draw_polygon_solid [(2, 2), (2, 6), (6, 6), (6, 2)] false
        ⟨0, 0, 255, 255⟩).bind fun c2 => c2.get 4 4) = some ⟨0, 0, 255⟩ ∧
    (((Canvas.new 10 10).draw_polygon_solid [(2, 2), (2, 6), (6, 6), (6, 2)] false
        ⟨0, 0, 255, 255⟩).bind fun c2 => c2.get 0 0) = some ⟨0, 0, 0⟩ := by
  constructor
  · decide
  · decide

/-- C2: the claim that no public operation panics is refuted by the code:
`draw_circle_solid(10, 0, 1, _)` on a 20×20 canvas panics.  The second
group of recording writes indexes the scanline buffers at
`x ± x_offset - (y - r)`: the first such index is `10 + 1 - (0 - 1) = 12`,
but the buffers have length `2*r + 1 = 3`, an out-of-bounds `Vec` index.
(The intended index, by the octant symmetry, is `(y ± x_offset) - (y - r)`;
the code uses `x` where `y` belongs, so every call with `cx ≠ cy` far
enough apart is fatal.) -/
theorem C2_draw_circle_solid_panics :
    (Canvas.new 20 20).draw_circle_solid 10 0 1 ⟨1, 2, 3, 255⟩ = none := by
  decide

/-- C3: the claim that each step draws the 8 symmetric points
`(cx±x_offset, cy±y_offset)` and `(cx±y_offset, cy±x_offset)` is refuted:
for `draw_circle(2, 0, 1, _)` the first step (with `x_offset = 1`,
`y_offset = 0`) should draw `(2±0, 0±1)`, i.e. include `(2, 1)` — the
reflection of the drawn pixel `(3, 0)` about the diagonal through the
center — but the code instead calls
`draw_pixel(y ± y_offset, x ± x_offset)` with swapped coordinate roles,
drawing `(0, 3)` and `(0, 1)`.  The drawn set is therefore not invariant
under the eight reflections whenever `cx ≠ cy`. -/
theorem C3_circle_outline_not_symmetric :
    (3, 0) ∈ drawCirclePoints 2 0 1 ∧
    ((2 : Int), (1 : Int)) ∉ drawCirclePoints 2 0 1 ∧
    (0, 3) ∈ drawCirclePoints 2 0 1 := by
  decide

/-- Membership in the fill phase of `draw_circle_solid`: a point is drawn
iff it sits on one of the `2*r` scanned rows, within that row's recorded
(left-inclusive, right-exclusive) span. -/
theorem mem_circleSolidFillPoints (y : Int) (r : Nat) (lb rb : List Int) (u v : Int) :
    (u, v) ∈ circleSolidFillPoints y r lb rb ↔
      ∃ i < 2 * r, v = (i : Int) + (y - (r : Int)) ∧
        lb.getD i 0 ≤ u ∧ u < rb.getD i 0 := by
  simp [circleSolidFillPoints, Prod.ext_iff]
  constructor
  · rintro ⟨i, hi, j, hj, hu, hv⟩
    exact ⟨i, hi, hv.symm, by omega, by omega⟩
  · rintro ⟨i, hi, hv, hl, hu⟩
    exact ⟨i, hi, (u - lb[i]?.getD 0).toNat, by omega, by omega, hv.symm⟩

/-- C5 (amended): whenever the recording phase of `draw_circle_solid`
completes without panicking, every filled row's horizontal span is
contiguous: if two pixels of one row are drawn, so is every pixel between
them.  (The other half of the claim — that the solid's pixels are a
superset of the outline's — is false, see the counterexample: the spans
are right-exclusive and the bottom row `cy + r` is never filled.) -/
theorem C5_solid_row_spans_contiguous (x y : Int) (r : Nat) (pts : List (Int × Int))
    (hpts : circleSolidPoints x y r = some pts) (row a b t : Int)
    (ha : (a, row) ∈ pts) (hb : (b, row) ∈ pts) (hat : a ≤ t) (htb : t ≤ b) :
    (t, row) ∈ pts := by
  obtain ⟨bufs, -, rfl⟩ := Option.map_eq_some'.1 hpts
  rw [mem_circleSolidFillPoints] at ha hb ⊢
  obtain ⟨i, hi, hrow, hal, har⟩ := ha
  obtain ⟨i2, hi2, hrow2, hbl, hbr⟩ := hb
  have : i = i2 := by omega
  subst this
  exact ⟨i, hi, hrow, by omega, by omega⟩

/-- C5 witness: the contiguity theorem applied at center `(5,5)`, radius 1,
where the recorded fill is the two pixels `(4,5)`, `(5,5)` of row 5. -/
theorem C5_witness :
    circleSolidPoints 5 5 1 = some [(4, 5), (5, 5)] ∧
    (4, 5) ∈ [((4 : Int), (5 : Int)), (5, 5)] ∧
    (5, 5) ∈ [((4 : Int), (5 : Int)), (5, 5)] ∧
    (5, 5) ∈ [((4 : Int), (5 : Int)), (5, 5)] :=
  ⟨by decide, by decide, by decide,
    C5_solid_row_spans_contiguous 5 5 1 [(4, 5), (5, 5)] (by decide) 5 4 5 5
      (by decide) (by decide) (by decide) (by decide)⟩

/-- C5 counterexample: at center `(5, 5)`, radius 3, the outline draws the
pixel `(8, 5)` (`= (cx + r, cy)`), the recording phase of the solid variant
completes, and yet `(8, 5)` is not among the solid's drawn pixels — the
solid's pixel set is not a superset of the outline's. -/
theorem C5_counterexample :
    (8, 5) ∈ drawCirclePoints 5 5 3 ∧
    (circleSolidPoints 5 5 3).isSome = true ∧
    ((8, 5) ∉ (circleSolidPoints 5 5 3).getD []) := by
  decide

/-- Operation `set` leaves width, height and buffer length unchanged (whether or not
the write goes through). -/
theorem set_shape (c : Canvas) (ux uy : Nat) (col : RGB) :
    ((c.set ux uy col).getD c).width = c.width ∧
    ((c.set ux uy col).getD c).height = c.height ∧
    ((c.set ux uy col).getD c).buffer.length = c.buffer.length := by
  rw [Canvas.set]
  split <;> simp

/-- Operation `draw_pixel` leaves width, height and buffer length unchanged. -/
theorem draw_pixel_shape (c : Canvas) (x y : Int) (col : RGBA) :
    (c.draw_pixel x y col).width = c.width ∧
    (c.draw_pixel x y col).height = c.height ∧
    (c.draw_pixel x y col).buffer.length = c.buffer.length := by
  rw [Canvas.draw_pixel]
  split
  · split
    · exact ⟨rfl, rfl, rfl⟩
    · rw [Canvas.set]
      split <;> simp
  · exact ⟨rfl, rfl, rfl⟩

/-- Folding any shape-preserving operation preserves the shape. -/
theorem foldl_shape {α : Type _} (f : Canvas → α → Canvas)
    (hf : ∀ cv a, (f cv a).width = cv.width ∧ (f cv a).height = cv.height ∧
      (f cv a).buffer.length = cv.buffer.length) :
    ∀ (l : List α) (c : Canvas),
      (l.foldl f c).width = c.width ∧ (l.foldl f c).height = c.height ∧
      (l.foldl f c).buffer.length = c.buffer.length := by
  intro l
  induction l with
  | nil => intro c; exact ⟨rfl, rfl, rfl⟩
  | cons a l ih =>
    intro c
    obtain ⟨h1, h2, h3⟩ := hf c a
    obtain ⟨g1, g2, g3⟩ := ih (f c a)
    exact ⟨g1.trans h1, g2.trans h2, g3.trans h3⟩

theorem draw_pixel_foldl_shape (col : RGBA) (pts : List (Int × Int)) (c : Canvas) :
    ((pts.foldl (fun cv p => cv.draw_pixel p.1 p.2 col) c).width = c.width ∧
      (pts.foldl (fun cv p => cv.draw_pixel p.1 p.2 col) c).height = c.height ∧
      (pts.foldl (fun cv p => cv.draw_pixel p.1 p.2 col) c).buffer.length = c.buffer.length) :=
  foldl_shape _ (fun cv p => draw_pixel_shape cv p.1 p.2 col) pts c

theorem draw_line_shape (c : Canvas) (x1 y1 x2 y2 : Int) (col : RGBA) :
    (c.draw_line x1 y1 x2 y2 col).width = c.width ∧
    (c.draw_line x1 y1 x2 y2 col).height = c.height ∧
    (c.draw_line x1 y1 x2 y2 col).buffer.length = c.buffer.length :=
  draw_pixel_foldl_shape col (drawLinePoints x1 y1 x2 y2) c

theorem draw_circle_shape (c : Canvas) (x y : Int) (r : Nat) (col : RGBA) :
    (c.draw_circle x y r col).width = c.width ∧
    (c.draw_circle x y r col).height = c.height ∧
    (c.draw_circle x y r col).buffer.length = c.buffer.length :=
  draw_pixel_foldl_shape col (drawCirclePoints x y r) c

theorem draw_circle_solid_shape (c : Canvas) (x y : Int) (r : Nat) (col : RGBA) :
    (((c.draw_circle_solid x y r col).getD c).width = c.width ∧
      ((c.draw_circle_solid x y r col).getD c).height = c.height ∧
      ((c.draw_circle_solid x y r col).getD c).buffer.length = c.buffer.length) := by
  rw [Canvas.draw_circle_solid]
  cases hcs : circleSolidPoints x y r with
  | none => exact ⟨rfl, rfl, rfl⟩
  | some pts =>
    simp only [Option.map_some', Option.getD_some]
    exact draw_pixel_foldl_shape col pts c

theorem draw_polygon_shape (c : Canvas) (verts : List (Int × Int)) (col : RGBA) :
    (c.draw_polygon verts col).width = c.width ∧
    (c.draw_polygon verts col).height = c.height ∧
    (c.draw_polygon verts col).buffer.length = c.buffer.length := by
  rw [Canvas.draw_polygon]
  split
  · exact ⟨rfl, rfl, rfl⟩
  · obtain ⟨h1, h2, h3⟩ := foldl_shape
      (fun cv i => cv.draw_line (verts.getD (i + 1) (0, 0)).1 (verts.getD (i + 1) (0, 0)).2
        (verts.getD i (0, 0)).1 (verts.getD i (0, 0)).2 col)
      (fun cv i => draw_line_shape cv _ _ _ _ col)
      (List.range (verts.length - 1)) c
    obtain ⟨g1, g2, g3⟩ := draw_line_shape
      ((List.range (verts.length - 1)).foldl
        (fun cv i => cv.draw_line (verts.getD (i + 1) (0, 0)).1 (verts.getD (i + 1) (0, 0)).2
          (verts.getD i (0, 0)).1 (verts.getD i (0, 0)).2 col) c)
      (verts.getD 0 (0, 0)).1 (verts.getD 0 (0, 0)).2
      (verts.getD (verts.length - 1) (0, 0)).1 (verts.getD (verts.length - 1) (0, 0)).2 col
    exact ⟨g1.trans h1, g2.trans h2, g3.trans h3⟩

/-- A successful `draw_polygon_solid` result is either the untouched
canvas (empty vertex list) or a `draw_pixel` fold over the fill points. -/
theorem draw_polygon_solid_eq_foldl (c : Canvas) (verts : List (Int × Int)) (cw : Bool)
    (col : RGBA) (c2 : Canvas) (h : c.draw_polygon_solid verts cw col = some c2) :
    c2 = c ∨ ∃ pts : List (Int × Int),
      c2 = pts.foldl (fun cv p => cv.draw_pixel p.1 p.2 col) c := by
  rw [Canvas.draw_polygon_solid] at h
  split at h
  · exact Or.inl (Option.some.inj h).symm
  · obtain ⟨rb, hrb, h⟩ := Option.bind_eq_some.1 h
    obtain ⟨lb, hlb, h⟩ := Option.bind_eq_some.1 h
    exact Or.inr ⟨_, (Option.some.inj h).symm⟩

theorem draw_polygon_solid_shape (c : Canvas) (verts : List (Int × Int)) (cw : Bool)
    (col : RGBA) :
    (((c.draw_polygon_solid verts cw col).getD c).width = c.width ∧
      ((c.draw_polygon_solid verts cw col).getD c).height = c.height ∧
      ((c.draw_polygon_solid verts cw col).getD c).buffer.length = c.buffer.length) := by
  cases hps : c.draw_polygon_solid verts cw col with
  | none => exact ⟨rfl, rfl, rfl⟩
  | some c2 =>
    simp only [Option.getD_some]
    rcases draw_polygon_solid_eq_foldl c verts cw col c2 hps with rfl | ⟨pts, rfl⟩
    · exact ⟨rfl, rfl, rfl⟩
    · exact draw_pixel_foldl_shape col pts c

/-- C9: `buffer.length == width*height` holds after `Canvas::new` and is
preserved by every public operation (`set`, `fill`, and all drawing
routines; for the two fallible solid fills, by whatever canvas the call
returns).  `fill` recreates the buffer at full size rather than growing
or shrinking it. -/
theorem C9_buffer_invariant (w h : Nat) (c : Canvas) (col : RGB) (paint : RGBA)
    (x y x1 y1 x2 y2 : Int) (ux uy r : Nat) (verts : List (Int × Int)) (cw : Bool)
    (hinv : c.bufferInv) :
    (Canvas.new w h).buffer.length = w * h ∧
    (c.fill col).buffer = List.replicate (c.width * c.height) col ∧
    (c.fill col).bufferInv ∧
    ((c.set ux uy col).getD c).bufferInv ∧
    (c.draw_pixel x y paint).bufferInv ∧
    (c.draw_line x1 y1 x2 y2 paint).bufferInv ∧
    (c.draw_circle x y r paint).bufferInv ∧
    ((c.draw_circle_solid x y r paint).getD c).bufferInv ∧
    (c.draw_polygon verts paint).bufferInv ∧
    ((c.draw_polygon_solid verts cw paint).getD c).bufferInv := by
  rw [Canvas.bufferInv] at hinv
  refine ⟨by simp [Canvas.new], rfl, by simp [Canvas.bufferInv, Canvas.fill], ?_, ?_, ?_, ?_,
    ?_, ?_, ?_⟩
  · obtain ⟨h1, h2, h3⟩ := set_shape c ux uy col
    rw [Canvas.bufferInv, h1, h2, h3, hinv]
  · obtain ⟨h1, h2, h3⟩ := draw_pixel_shape c x y paint
    rw [Canvas.bufferInv, h1, h2, h3, hinv]
  · obtain ⟨h1, h2, h3⟩ := draw_line_shape c x1 y1 x2 y2 paint
    rw [Canvas.bufferInv, h1, h2, h3, hinv]
  · obtain ⟨h1, h2, h3⟩ := draw_circle_shape c x y r paint
    rw [Canvas.bufferInv, h1, h2, h3, hinv]
  · obtain ⟨h1, h2, h3⟩ := draw_circle_solid_shape c x y r paint
    rw [Canvas.bufferInv, h1, h2, h3, hinv]
  · obtain ⟨h1, h2, h3⟩ := draw_polygon_shape c verts paint
    rw [Canvas.bufferInv, h1, h2, h3, hinv]
  · obtain ⟨h1, h2, h3⟩ := draw_polygon_solid_shape c verts cw paint
    rw [Canvas.bufferInv, h1, h2, h3, hinv]

/-- C9 witness: the invariant statement evaluated on a fresh 2×2 canvas
with small concrete arguments for every operation. -/
theorem C9_witness :
    (Canvas.new 2 2).bufferInv ∧
    ((Canvas.new 3 3).buffer.length = 3 * 3 ∧
      ((Canvas.new 2 2).fill ⟨1, 2, 3⟩).buffer =
        List.replicate ((Canvas.new 2 2).width * (Canvas.new 2 2).height) ⟨1, 2, 3⟩ ∧
      ((Canvas.new 2 2).fill ⟨1, 2, 3⟩).bufferInv ∧
      (((Canvas.new 2 2).set 0 1 ⟨1, 2, 3⟩).getD (Canvas.new 2 2)).bufferInv ∧
      ((Canvas.new 2 2).draw_pixel 0 0 ⟨9, 9, 9, 255⟩).bufferInv ∧
      ((Canvas.new 2 2).draw_line 0 0 1 1 ⟨9, 9, 9, 255⟩).bufferInv ∧
      ((Canvas.new 2 2).draw_circle 0 0 1 ⟨9, 9, 9, 255⟩).bufferInv ∧
      (((Canvas.new 2 2).draw_circle_solid 0 0 1 ⟨9, 9, 9, 255⟩).getD
        (Canvas.new 2 2)).bufferInv ∧
      ((Canvas.new 2 2).draw_polygon [(0, 0), (1, 1)] ⟨9, 9, 9, 255⟩).bufferInv ∧
      (((Canvas.new 2 2).draw_polygon_solid [(0, 0), (1, 1)] true ⟨9, 9, 9, 255⟩).getD
        (Canvas.new 2 2)).bufferInv) :=
  ⟨by rw [Canvas.bufferInv]; decide,
    C9_buffer_invariant 3 3 (Canvas.new 2 2) ⟨1, 2, 3⟩ ⟨9, 9, 9, 255⟩
      0 0 0 0 1 1 0 1 1 [(0, 0), (1, 1)] true (by rw [Canvas.bufferInv]; decide)⟩

/-- C10: every mutating operation leaves the canvas's `width` and `height`
fields unchanged (for the fallible solid fills, whatever canvas the call
returns keeps them). -/
theorem C10_width_height_preserved (c : Canvas) (col : RGB) (paint : RGBA)
    (x y x1 y1 x2 y2 : Int) (ux uy r : Nat) (verts : List (Int × Int)) (cw : Bool) :
    (((c.set ux uy col).getD c).width = c.width ∧
      ((c.set ux uy col).getD c).height = c.height) ∧
    ((c.fill col).width = c.width ∧ (c.fill col).height = c.height) ∧
    ((c.draw_pixel x y paint).width = c.width ∧
      (c.draw_pixel x y paint).height = c.height) ∧
    ((c.draw_line x1 y1 x2 y2 paint).width = c.width ∧
      (c.draw_line x1 y1 x2 y2 paint).height = c.height) ∧
    ((c.draw_circle x y r paint).width = c.width ∧
      (c.draw_circle x y r paint).height = c.height) ∧
    (((c.draw_circle_solid x y r paint).getD c).width = c.width ∧
      ((c.draw_circle_solid x y r paint).getD c).height = c.height) ∧
    ((c.draw_polygon verts paint).width = c.width ∧
      (c.draw_polygon verts paint).height = c.height) ∧
    (((c.draw_polygon_solid verts cw paint).getD c).width = c.width ∧
      ((c.draw_polygon_solid verts cw paint).getD c).height = c.height) :=
  ⟨⟨(set_shape c ux uy col).1, (set_shape c ux uy col).2.1⟩,
    ⟨rfl, rfl⟩,
    ⟨(draw_pixel_shape c x y paint).1, (draw_pixel_shape c x y paint).2.1⟩,
    ⟨(draw_line_shape c x1 y1 x2 y2 paint).1, (draw_line_shape c x1 y1 x2 y2 paint).2.1⟩,
    ⟨(draw_circle_shape c x y r paint).1, (draw_circle_shape c x y r paint).2.1⟩,
    ⟨(draw_circle_solid_shape c x y r paint).1, (draw_circle_solid_shape c x y r paint).2.1⟩,
    ⟨(draw_polygon_shape c verts paint).1, (draw_polygon_shape c verts paint).2.1⟩,
    ⟨(draw_polygon_solid_shape c verts cw paint).1,
      (draw_polygon_solid_shape c verts cw paint).2.1⟩⟩

end CanvasRs
